import Mathlib

/-!
# Verification of the acacia markup / routing core

A shallow embedding of the acacia repository's core:

* `acacia_core/src/lib.rs` — `Fragment`, `escape_html`, the `RenderHtml`
  capability, `AppError`;
* `acacia_core/src/hateoas.rs` — `Method`, `Endpoint`, `Swap`, `Target`,
  `HtmxAction` and the `loads`/`submits`/`removes` constructors;
* `acacia_macros/src/route.rs` — path-parameter extraction and the
  reverse-URL expression built by `page_impl`/`action_impl`;
* `acacia_macros/src/html.rs` — attribute and element emission and the
  `@for` control-flow expansion of the `html!` macro.

Strings are modelled as `List Char`; Rust's byte-index operations on the
ASCII templates involved coincide with the character-level ones used here.
-/

set_option autoImplicit false

namespace Acacia

/-! ## List/string utilities mirroring the Rust standard library -/

/-- `str::split(c)` from Rust: splits at every occurrence of `c`, keeping
empty chunks, so that `"".split(c) = [""]` and `"/".split('/') = ["", ""]`. -/
def splitOnChar (c : Char) : List Char → List (List Char)
  | [] => [[]]
  | x :: xs =>
    if x = c then [] :: splitOnChar c xs
    else
      match splitOnChar c xs with
      | [] => [[x]]
      | s :: rest => (x :: s) :: rest

/-- `str::starts_with('{')`. -/
def startsWithBrace : List Char → Bool
  | [] => false
  | c :: _ => c = '{'

/-- Is the first list a prefix of the second? -/
def isPrefixB : List Char → List Char → Bool
  | [], _ => true
  | _ :: _, [] => false
  | a :: as, b :: bs => a = b && isPrefixB as bs

/-- Number of positions of `s` at which `pat` occurs as a substring. -/
def countSubstr (pat : List Char) : List Char → Nat
  | [] => if isPrefixB pat [] then 1 else 0
  | c :: rest => (if isPrefixB pat (c :: rest) then 1 else 0) + countSubstr pat rest

/-- `str::ends_with('}')`. -/
def endsWithCloseBrace (s : List Char) : Bool :=
  s.getLast? = some '}'

/-- `Vec::join(" ")` from Rust. -/
def joinSpace : List (List Char) → List Char
  | [] => []
  | [x] => x
  | x :: xs => x ++ ' ' :: joinSpace xs

/-! ## Path-parameter extraction (`acacia_macros/src/route.rs`)

`page_impl` and `action_impl` both extract path parameters with

```rust
let path_params: Vec<String> = path_str
    .split('/')
    .filter(|s| s.starts_with('{') && s.ends_with('}'))
    .map(|s| s[1..s.len() - 1].to_string())
    .collect();
```
-/

/-- The filter `s.starts_with('{') && s.ends_with('}')` applied to one
`/`-delimited chunk. -/
def isParamSeg (s : List Char) : Bool :=
  startsWithBrace s && endsWithCloseBrace s

/-- `s[1..s.len()-1]`: strip the leading `{` and the trailing `}`. -/
def stripBraces (s : List Char) : List Char :=
  (s.drop 1).dropLast

/-- `path_params` as computed by `page_impl`/`action_impl`. -/
def pathParams (t : List Char) : List (List Char) :=
  ((splitOnChar '/' t).filter isParamSeg).map stripBraces

/-! ## Fragment (`acacia_core/src/lib.rs`) -/

/-- `pub struct Fragment(pub String)`. -/
structure Fragment where
  html : List Char
  deriving Repr, DecidableEq

/-- `Fragment::empty()`. -/
def Fragment.empty : Fragment := ⟨[]⟩

/-- `impl Add for Fragment`: `Fragment(self.0 + &rhs.0)`. -/
def Fragment.add (a b : Fragment) : Fragment := ⟨a.html ++ b.html⟩

/-- `impl AddAssign for Fragment`: `self.0.push_str(&rhs.0)`; the final
state of `self` after `self += rhs`. -/
def Fragment.addAssign (a b : Fragment) : Fragment := ⟨a.html ++ b.html⟩

/-- `impl FromIterator<Fragment> for Fragment`: concatenate the underlying
strings in order. -/
def Fragment.fromIter (l : List Fragment) : Fragment :=
  ⟨(l.map Fragment.html).flatten⟩

/-! ## HATEOAS builder (`acacia_core/src/hateoas.rs`) -/

/-- `enum Method`. -/
inductive Method where
  | get | post | put | patch | delete
  deriving Repr, DecidableEq

/-- `struct Endpoint { path, method }`. -/
structure Endpoint where
  path : List Char
  method : Method
  deriving Repr, DecidableEq

/-- `enum Swap`. -/
inductive Swap where
  | innerHtml | outerHtml | beforeBegin | afterBegin | beforeEnd | afterEnd
  | delete | none
  deriving Repr, DecidableEq

/-- `impl fmt::Display for Swap`. -/
def Swap.display : Swap → List Char
  | .innerHtml => "innerHTML".data
  | .outerHtml => "outerHTML".data
  | .beforeBegin => "beforebegin".data
  | .afterBegin => "afterbegin".data
  | .beforeEnd => "beforeend".data
  | .afterEnd => "afterend".data
  | .delete => "delete".data
  | .none => "none".data

/-- `enum Target`. -/
inductive Target where
  | this
  | parent
  | closest (selector : List Char)
  | selector (s : List Char)
  deriving Repr, DecidableEq

/-- `impl fmt::Display for Target`; note `Target::Parent` renders as the
fixed selector `closest li`. -/
def Target.display : Target → List Char
  | .this => "this".data
  | .parent => "closest li".data
  | .closest sel => "closest ".data ++ sel
  | .selector s => s

/-- `struct HtmxAction { endpoint, target, swap }`. -/
structure HtmxAction where
  endpoint : Endpoint
  target : Option Target
  swap : Option Swap
  deriving Repr, DecidableEq

/-- `HtmxAction::new(endpoint)`. -/
def HtmxAction.new (e : Endpoint) : HtmxAction := ⟨e, .none, .none⟩

/-- `HtmxAction::target`. -/
def HtmxAction.setTarget (a : HtmxAction) (t : Target) : HtmxAction :=
  { a with target := some t }

/-- `HtmxAction::swap`. -/
def HtmxAction.setSwap (a : HtmxAction) (s : Swap) : HtmxAction :=
  { a with swap := some s }

/-- The `hx-*` attribute name chosen by `HtmxAction::build` for each method. -/
def methodAttr : Method → List Char
  | .get => "hx-get".data
  | .post => "hx-post".data
  | .put => "hx-put".data
  | .patch => "hx-patch".data
  | .delete => "hx-delete".data

/-- `HtmxAction::build`: collect `attr="value"` pairs and join with spaces. -/
def HtmxAction.build (a : HtmxAction) : List Char :=
  let attrs : List (List Char) :=
    [methodAttr a.endpoint.method ++ '=' :: '"' :: (a.endpoint.path ++ ['"'])]
    ++ (match a.target with
        | some t => ["hx-target=\"".data ++ Target.display t ++ ['"']]
        | none => [])
    ++ (match a.swap with
        | some s => ["hx-swap=\"".data ++ Swap.display s ++ ['"']]
        | none => [])
  joinSpace attrs

/-- `loads(endpoint)`: forces the GET method. -/
def loads (e : Endpoint) : HtmxAction :=
  HtmxAction.new ⟨e.path, .get⟩

/-- `submits(endpoint)`: uses the endpoint as declared. -/
def submits (e : Endpoint) : HtmxAction :=
  HtmxAction.new e

/-- `removes(endpoint)`: `HtmxAction::new(endpoint).swap(Swap::OuterHtml).target(Target::Parent)`.
The endpoint (including its method) is used as declared. -/
def removes (e : Endpoint) : HtmxAction :=
  (HtmxAction.new e).setSwap .outerHtml |>.setTarget .parent

/-! ## HTML escaping (`acacia_core/src/lib.rs`)

`escape_html` delegates to `html_escape::encode_text`, whose documented
behavior is to replace `&` with `&amp;`, `<` with `&lt;` and `>` with
`&gt;`, leaving every other character (including `"` and `'`) unchanged. -/

/-- The replacement `html_escape::encode_text` performs on one character. -/
def escapeChar (c : Char) : List Char :=
  if c = '&' then "&amp;".data
  else if c = '<' then "&lt;".data
  else if c = '>' then "&gt;".data
  else [c]

/-- `escape_html(s)` = `html_escape::encode_text(s).to_string()`. -/
def escape_html (s : List Char) : List Char :=
  (s.map escapeChar).flatten

/-- At a character `c` followed by `rest`: if `c` is `&` it must begin one
of the entities `&amp;`, `&lt;`, `&gt;`. -/
def entityOkAt (c : Char) (rest : List Char) : Bool :=
  if c = '&' then
    isPrefixB "amp;".data rest || isPrefixB "lt;".data rest || isPrefixB "gt;".data rest
  else true

/-- A string is well escaped for HTML text content when it contains no raw
`<` or `>` and every occurrence of `&` begins one of the entities
`&amp;`, `&lt;`, `&gt;`. -/
def wellEscaped : List Char → Bool
  | [] => true
  | c :: rest => !(c = '<' || c = '>') && entityOkAt c rest && wellEscaped rest

/-! ### Decimal formatting, mirroring `i64::to_string` -/

/-- Digits of `n`, most significant first; `fuel` bounds the recursion and
is ample whenever `fuel > n`. Mirrors Rust's decimal `Display` for integers. -/
def natToDigits : Nat → Nat → List Char
  | 0, _ => []
  | fuel + 1, n =>
    if n < 10 then [Nat.digitChar n]
    else natToDigits fuel (n / 10) ++ [Nat.digitChar (n % 10)]

/-- `u64::to_string` / the non-negative case of `i64::to_string`. -/
def natToString (n : Nat) : List Char :=
  natToDigits (n + 1) n

/-- `i64::to_string`. -/
def intToString : Int → List Char
  | .ofNat n => natToString n
  | .negSucc n => '-' :: natToString (n + 1)

/-- `bool::to_string`. -/
def boolToString (b : Bool) : List Char :=
  if b then "true".data else "false".data

/-! ## The `RenderHtml` capability (`acacia_core/src/lib.rs`)

A runtime value that can flow into a generic expression block of the
`html!` macro: a text value, an integer, a boolean, or a `Fragment`.
These are the types given `RenderHtml` instances by the source. -/

/-- A value rendered through `RenderHtml::render_html`. -/
inductive RVal where
  | str (s : List Char)
  | int (n : Int)
  | boolean (b : Bool)
  | frag (f : Fragment)
  deriving Repr, DecidableEq

/-- `RenderHtml::render_html` per implementation: strings are passed
through `escape_html`, numbers and booleans through `to_string`, and
`Fragment` returns its content unchanged. -/
def renderHtml : RVal → List Char
  | .str s => escape_html s
  | .int n => intToString n
  | .boolean b => boolToString b
  | .frag f => f.html

/-! ## Application errors (`acacia_core/src/lib.rs`) -/

/-- `enum AppError`. -/
inductive AppError where
  | notFound
  | badRequest (msg : List Char)
  | unauthorized
  | forbidden
  | conflict (msg : List Char)
  | internal (msg : List Char)
  | database (msg : List Char)
  deriving Repr, DecidableEq

/-- `AppError::status_code`, with HTTP status codes as their numeric value. -/
def AppError.statusCode : AppError → Nat
  | .notFound => 404
  | .badRequest _ => 400
  | .unauthorized => 401
  | .forbidden => 403
  | .conflict _ => 409
  | .internal _ => 500
  | .database _ => 500

/-- `AppError::message`. -/
def AppError.message : AppError → List Char
  | .notFound => "Not found".data
  | .badRequest msg => msg
  | .unauthorized => "Unauthorized".data
  | .forbidden => "Forbidden".data
  | .conflict msg => msg
  | .internal msg => msg
  | .database msg => msg

/-- The styled error markup produced by `impl IntoResponse for AppError`. -/
def errorBody (msg : List Char) : List Char :=
  "<div style=\"padding: 20px; color: #721c24; background: #f8d7da; border: 1px solid #f5c6cb; border-radius: 4px;\">\n                <strong>Error:</strong> ".data
    ++ msg ++ "\n            </div>".data

/-- `impl IntoResponse for AppError`: the (status, HTML body) pair. -/
def AppError.intoResponse (e : AppError) : Nat × List Char :=
  (e.statusCode, errorBody e.message)

/-! ## Attribute emission (`acacia_macros/src/html.rs`, `process_attribute`) -/

/-- The boolean attribute names special-cased by `process_attribute`. -/
def boolAttrNames : List (List Char) :=
  ["checked".data, "disabled".data, "selected".data, "readonly".data]

/-- The runtime value of an attribute's value expression: a boolean (as
required when the name is a boolean attribute) or a displayable string. -/
inductive AttrVal where
  | b (v : Bool)
  | s (v : List Char)
  deriving Repr, DecidableEq

/-- An attribute as seen by `process_attribute`: a named attribute with an
optional value expression, or a block (spread) attribute whose expression's
`to_string()` value is injected verbatim. -/
inductive Attr where
  | attr (name : List Char) (value : Option AttrVal)
  | block (s : List Char)
  deriving Repr, DecidableEq

/-- What `to_string()` yields on an attribute value expression. -/
def AttrVal.display : AttrVal → List Char
  | .b v => boolToString v
  | .s v => v

/-- The text `process_attribute`'s generated code appends for one
attribute. `none` marks the case where the generated code would not
type-check (a boolean attribute whose value expression is not a boolean
condition). -/
def renderAttr : Attr → Option (List Char)
  | .attr name (some v) =>
    if name ∈ boolAttrNames then
      match v with
      | .b cond => some (if cond then ' ' :: name else [])
      | .s _ => none
    else
      some (' ' :: name ++ '=' :: '"' :: (escape_html v.display ++ ['"']))
  | .attr name none => some (' ' :: name)
  | .block s => some (' ' :: s)

/-- All attributes of a tag, in order. -/
def renderAttrs : List Attr → Option (List Char)
  | [] => some []
  | a :: rest => do
    let h ← renderAttr a
    let t ← renderAttrs rest
    pure (h ++ t)

/-! ## Element emission (`acacia_macros/src/html.rs`, `process_element`) -/

/-- The fixed self-closing tag set, as listed both in `html_impl`'s parser
configuration and in `process_element`. -/
def selfClosedElements : List (List Char) :=
  ["area".data, "base".data, "br".data, "col".data, "embed".data, "hr".data,
   "img".data, "input".data, "link".data, "meta".data, "source".data,
   "track".data, "wbr".data]

/-- Membership test used by `process_element` (`self_closing.contains`). -/
def selfClosing (tag : List Char) : Bool :=
  decide (tag ∈ selfClosedElements)

/-- The text `process_element`'s generated code appends for one element,
given the already-emitted attribute text and (for non-self-closing tags)
the already-emitted children text. Self-closing tags get a trailing
`" />"` and their children are never emitted. -/
def renderElement (tag attrsOut childrenOut : List Char) : List Char :=
  if selfClosing tag then
    '<' :: tag ++ attrsOut ++ " />".data
  else
    '<' :: tag ++ attrsOut ++ '>' :: (childrenOut ++ '<' :: '/' :: (tag ++ ['>']))

/-! ## `@for` control flow (`acacia_macros/src/html.rs`, `process_block`)

A block whose single statement is a `for` loop expands to

```rust
for pat in iter { <body code> }
```

where the body code appends the body's rendering for the bound element to
the shared `__html` buffer. `renderForAcc bodyF items acc` is the buffer
content after the loop, starting from buffer content `acc`. -/

/-- The `__html` buffer after running the expanded `@for` loop. -/
def renderForAcc {α : Type} (bodyF : α → List Char) (items : List α)
    (acc : List Char) : List Char :=
  items.foldl (fun h x => h ++ bodyF x) acc

/-! ## Markup parse acceptance

Modelled from the spec: the tag parser itself lives in the external
`rstml` crate, configured by `html_impl` with
`always_self_closed_elements(self_closed)`; per §4.1 an element whose name
is in the self-closing set is accepted without a matching close tag, and
every other element requires a matching close tag or the parse fails.
Tokens here are open and close tags; `parseToks` returns `none` on a
failed parse. -/

/-- A tag token of the markup input. -/
inductive Tok where
  | openTag (t : List Char)
  | closeTag (t : List Char)
  deriving Repr, DecidableEq

/-- A parsed element tree. -/
inductive PNode where
  | elem (tag : List Char) (children : List PNode)
  deriving Repr

/-- Parse a node sequence until an unmatched close tag or the end of
input; returns the nodes and the unconsumed tokens. The fuel is ample
whenever it exceeds the token count. -/
def parseMany : Nat → List Tok → Option (List PNode × List Tok)
  | 0, _ => none
  | _ + 1, [] => some ([], [])
  | _ + 1, Tok.closeTag t :: rest => some ([], Tok.closeTag t :: rest)
  | fuel + 1, Tok.openTag t :: rest =>
    if selfClosing t then
      match parseMany fuel rest with
      | some (ns, rem) => some (PNode.elem t [] :: ns, rem)
      | none => none
    else
      match parseMany fuel rest with
      | some (children, Tok.closeTag t' :: rem) =>
        if t' = t then
          match parseMany fuel rem with
          | some (ns, rem') => some (PNode.elem t children :: ns, rem')
          | none => none
        else none
      | _ => none

/-- Parse a complete token stream. -/
def parseToks (toks : List Tok) : Option (List PNode) :=
  match parseMany (toks.length + 1) toks with
  | some (ns, []) => some ns
  | _ => none

/-! ## Reverse-URL construction (`acacia_macros/src/route.rs`)

When `path_params` is non-empty, `page_impl`/`action_impl` generate a
function with one argument per extracted parameter, in order, whose body
is built by splitting the template on `'{'`:

```rust
let parts: Vec<&str> = path_str.split('{').collect();
// part 0 is pushed literally; every later part is split at its first '}'
// into a parameter name (pushed as the argument's Display value) and a
// literal rest.
```
-/

/-- `part.find('}')` followed by the split into `part[..i]` and
`part[i+1..]`; `none` when the part has no `}` (where the macro panics). -/
def findCloseBrace : List Char → Option (List Char × List Char)
  | [] => none
  | c :: rest =>
    if c = '}' then some ([], rest)
    else
      match findCloseBrace rest with
      | some (a, b) => some (c :: a, b)
      | none => none

/-- The buffer content after processing the parts that follow the first,
starting from buffer content `acc`. The generated block begins
`let mut url = String::new();`, and that binding lexically shadows a
function argument named `url` (both idents have call-site hygiene), so
inside the block the ident `url` resolves to the buffer itself:
`url.push_str(&url.to_string())` appends the buffer's current content
(evaluated before the push under two-phase borrows). Every other
parameter ident resolves through `env` (the generated function's
argument bindings); `none` when a part lacks `}` or references an ident
bound neither by an argument nor by the buffer. -/
def urlTail (env : List Char → Option (List Char)) :
    List (List Char) → List Char → Option (List Char)
  | [], acc => some acc
  | part :: more, acc => do
    let (name, after) ← findCloseBrace part
    let v ← if name = "url".data then some acc else env name
    urlTail env more (acc ++ v ++ after)

/-- The full URL built by the generated function's body: part 0 is pushed
literally, then the remaining parts are processed against the buffer. -/
def urlBuild (t : List Char) (env : List Char → Option (List Char)) :
    Option (List Char) :=
  match splitOnChar '{' t with
  | [] => none
  | first :: parts => urlTail env parts first

/-- First-match association lookup, the binding discipline of the
generated function's arguments. -/
def lookupAssoc : List (List Char × List Char) → List Char → Option (List Char)
  | [], _ => none
  | (k, v) :: rest, n => if k = n then some v else lookupAssoc rest n

/-- The generated reverse-URL function applied to positional arguments:
one argument per entry of `path_params`, in extraction order. -/
def reverseUrl (t : List Char) (args : List (List Char)) : Option (List Char) :=
  if (pathParams t).length = args.length then
    urlBuild t (lookupAssoc ((pathParams t).zip args))
  else none

/-! ## Compile-time success of a route declaration -/

/-- A character usable to start a Rust identifier. -/
def isIdentStart (c : Char) : Bool :=
  c.isAlpha || c = '_'

/-- A character usable inside a Rust identifier. -/
def isIdentCont (c : Char) : Bool :=
  c.isAlphanum || c = '_'

/-- Validity of a parameter name as a Rust identifier (`format_ident!`
panics on anything else); keywords are not modelled, as no claim involves
one. -/
def validIdent : List Char → Bool
  | [] => false
  | c :: rest => isIdentStart c && rest.all isIdentCont

/-- Duplicate-freedom of the generated argument list. -/
def nodupB : List (List Char) → Bool
  | [] => true
  | x :: xs => !xs.contains x && nodupB xs

/-- Whether the route macro invocation on template `t` expands and
compiles. With no extracted parameters a constant endpoint is emitted and
nothing can fail; otherwise every parameter name must be a valid
identifier and distinct, every `'{'`-split part after the first must
contain a `}` (`find('}').unwrap()`), and every name found there must be
a valid identifier that is in scope in the generated block: bound by some
extracted parameter, or equal to `url` — the name of the block's local
buffer, which is always in scope (and shadows an argument of that name). -/
def templateCompiles (t : List Char) : Bool :=
  if pathParams t = [] then true
  else
    (pathParams t).all validIdent && nodupB (pathParams t) &&
    ((splitOnChar '{' t).drop 1).all (fun part =>
      match findCloseBrace part with
      | some (n, _) => validIdent n && ((pathParams t).contains n || n == "url".data)
      | none => false)

/-! ## Well-formed path templates

The data model's `PathSegment` view of a template: an ordered sequence of
literal chunks and `{name}` placeholders, joined with `/`. A template is
well formed when every placeholder occupies a whole `/`-delimited chunk —
exactly the shape produced by the repository's route declarations. -/

/-- One `/`-delimited chunk of a template: a literal or a placeholder. -/
inductive Seg where
  | lit (s : List Char)
  | par (name : List Char)
  deriving Repr, DecidableEq

/-- The chunk's source text. -/
def segStr : Seg → List Char
  | .lit s => s
  | .par a => '{' :: (a ++ ['}'])

/-- Join chunks with `/` separators, recovering the template string. -/
def joinSegs : List Seg → List Char
  | [] => []
  | [s] => segStr s
  | s :: r :: rs => segStr s ++ '/' :: joinSegs (r :: rs)

/-- The placeholder names in order of first occurrence. -/
def parNames : List Seg → List (List Char)
  | [] => []
  | .lit _ :: rest => parNames rest
  | .par a :: rest => a :: parNames rest

/-- Replace each placeholder, left to right, with the next argument. -/
def substSegs : List Seg → List (List Char) → List Seg
  | [], _ => []
  | .lit s :: rest, args => .lit s :: substSegs rest args
  | .par _ :: rest, v :: args => .lit v :: substSegs rest args
  | .par a :: rest, [] => .par a :: substSegs rest []

/-- Constraints making a chunk well formed: literals carry no brace and no
slash; placeholder names are valid identifiers containing no brace and no
slash. -/
def SegOk : Seg → Prop
  | .lit s => '{' ∉ s ∧ '}' ∉ s ∧ '/' ∉ s
  | .par a => validIdent a = true ∧ '{' ∉ a ∧ '}' ∉ a ∧ '/' ∉ a

instance (s : Seg) : Decidable (SegOk s) := by
  cases s <;> (simp only [SegOk]; infer_instance)

/-- Decomposition of a joined template at its `{` characters: the leading
literal text and, per placeholder, its name and the literal text that
follows it up to the next placeholder. -/
def braceOf : List Seg → List Char × List (List Char × List Char)
  | [] => ([], [])
  | [.lit s] => (s, [])
  | [.par a] => ([], [(a, [])])
  | .lit s :: r :: rs =>
    match braceOf (r :: rs) with
    | (f, bs) => (s ++ '/' :: f, bs)
  | .par a :: r :: rs =>
    match braceOf (r :: rs) with
    | (f, bs) => ([], (a, '/' :: f) :: bs)

/-- Reassemble a brace decomposition's blocks. -/
def concatBlocks : List (List Char × List Char) → List Char
  | [] => []
  | (a, r) :: rest => '{' :: (a ++ '}' :: (r ++ concatBlocks rest))

/-! # Theorems -/

/-! ## C10 — Fragment concatenation -/

lemma foldl_add_eq (l : List Fragment) :
    ∀ acc : Fragment, l.foldl Fragment.add acc = ⟨acc.html ++ (l.map Fragment.html).flatten⟩ := by
  induction l with
  | nil => intro acc; cases acc; simp [Fragment.add]
  | cons f rest ih =>
    intro acc
    simp only [List.foldl_cons, ih, Fragment.add, List.map_cons, List.flatten_cons,
      List.append_assoc]

/-- C10: `Fragment` concatenation is string concatenation; `Fragment::empty`
is a two-sided identity for `+`; `+=` appends the right operand's string;
collecting an iterator of fragments concatenates their strings in order. -/
theorem fragment_monoid :
    (∀ a b : Fragment, Fragment.add a b = ⟨a.html ++ b.html⟩) ∧
    (∀ a : Fragment, Fragment.add Fragment.empty a = a ∧ Fragment.add a Fragment.empty = a) ∧
    (∀ a b : Fragment, Fragment.addAssign a b = Fragment.add a b) ∧
    (∀ l : List Fragment,
      Fragment.fromIter l = ⟨(l.map Fragment.html).flatten⟩ ∧
      Fragment.fromIter l = l.foldl Fragment.add Fragment.empty) := by
  refine ⟨fun a b => rfl, fun a => ⟨?_, ?_⟩, fun a b => rfl, fun l => ⟨rfl, ?_⟩⟩
  · cases a; simp [Fragment.add, Fragment.empty]
  · cases a; simp [Fragment.add, Fragment.empty]
  · rw [foldl_add_eq]; rfl

/-- Witness for C10 at concrete fragments. -/
theorem fragment_monoid_witness :
    Fragment.add ⟨"ab".data⟩ ⟨"cd".data⟩ = ⟨"ab".data ++ "cd".data⟩ ∧
    Fragment.fromIter [⟨"x".data⟩, ⟨"y".data⟩]
      = [Fragment.mk "x".data, Fragment.mk "y".data].foldl Fragment.add Fragment.empty :=
  ⟨fragment_monoid.1 _ _, (fragment_monoid.2.2.2 _).2⟩

/-! ## C9 — AppError classification and mapping -/

/-- C9: the typed application error has exactly the seven classifications,
each carrying a message; its status mapping is NotFound→404,
BadRequest→400, Unauthorized→401, Forbidden→403, Conflict→409,
Internal→500, Database→500; and the response body is the styled error
fragment containing the message, served at that status. -/
theorem appError_design :
    (∀ e : AppError,
      e = .notFound ∨ (∃ m, e = .badRequest m) ∨ e = .unauthorized ∨
      e = .forbidden ∨ (∃ m, e = .conflict m) ∨ (∃ m, e = .internal m) ∨
      (∃ m, e = .database m)) ∧
    (AppError.notFound.statusCode = 404 ∧
      (∀ m, (AppError.badRequest m).statusCode = 400) ∧
      AppError.unauthorized.statusCode = 401 ∧
      AppError.forbidden.statusCode = 403 ∧
      (∀ m, (AppError.conflict m).statusCode = 409) ∧
      (∀ m, (AppError.internal m).statusCode = 500) ∧
      (∀ m, (AppError.database m).statusCode = 500)) ∧
    (∀ e : AppError,
      e.intoResponse.1 = e.statusCode ∧
      e.intoResponse.2 = errorBody e.message ∧
      e.message <:+: e.intoResponse.2) := by
  refine ⟨?_, ⟨rfl, fun m => rfl, rfl, rfl, fun m => rfl, fun m => rfl, fun m => rfl⟩, ?_⟩
  · intro e
    cases e with
    | notFound => exact Or.inl rfl
    | badRequest m => exact Or.inr (Or.inl ⟨m, rfl⟩)
    | unauthorized => exact Or.inr (Or.inr (Or.inl rfl))
    | forbidden => exact Or.inr (Or.inr (Or.inr (Or.inl rfl)))
    | conflict m => exact Or.inr (Or.inr (Or.inr (Or.inr (Or.inl ⟨m, rfl⟩))))
    | internal m => exact Or.inr (Or.inr (Or.inr (Or.inr (Or.inr (Or.inl ⟨m, rfl⟩)))))
    | database m => exact Or.inr (Or.inr (Or.inr (Or.inr (Or.inr (Or.inr ⟨m, rfl⟩)))))
  · intro e
    refine ⟨rfl, rfl, ?_⟩
    show e.message <:+: errorBody e.message
    exact ⟨"<div style=\"padding: 20px; color: #721c24; background: #f8d7da; border: 1px solid #f5c6cb; border-radius: 4px;\">\n                <strong>Error:</strong> ".data,
      "\n            </div>".data, rfl⟩

/-- Witness for C9 at a concrete error value. -/
theorem appError_design_witness :
    (AppError.badRequest "oops".data).statusCode = 400 ∧
    (AppError.badRequest "oops".data).message <:+: (AppError.badRequest "oops".data).intoResponse.2 :=
  ⟨appError_design.2.1.2.1 _, (appError_design.2.2 _).2.2⟩

/-! ## C3 — the `removes` convenience constructor -/

/-- C3 counterexample: `removes` does not force the DELETE method; on a
GET endpoint the rendered attribute string uses `hx-get` and contains no
`hx-delete` attribute, refuting the claim that every `removes` action
renders with `hx-delete`. -/
theorem removes_get_counterexample :
    HtmxAction.build (removes ⟨"/x".data, Method.get⟩)
      = "hx-get=\"/x\" hx-target=\"closest li\" hx-swap=\"outerHTML\"".data ∧
    countSubstr "hx-delete".data
      (HtmxAction.build (removes ⟨"/x".data, Method.get⟩)) = 0 := by
  constructor
  · rfl
  · decide

/-- C3 (amended): `removes` keeps the endpoint (and hence its declared
method) unchanged, defaulting the target to `Target::Parent` (rendered
`closest li`) and the swap to `outerHTML`; its rendered attribute string
is the method attribute of the endpoint's own method — `hx-delete`
exactly when the method is DELETE — followed by those defaults. -/
theorem removes_defaults :
    (∀ e : Endpoint, removes e
      = { endpoint := e, target := some Target.parent, swap := some Swap.outerHtml }) ∧
    (∀ e : Endpoint, HtmxAction.build (removes e)
      = (methodAttr e.method ++ '=' :: '"' :: (e.path ++ ['"']))
        ++ ' ' :: ("hx-target=\"closest li\"".data ++ ' ' :: "hx-swap=\"outerHTML\"".data)) ∧
    methodAttr Method.delete = "hx-delete".data :=
  ⟨fun _ => rfl, fun _ => rfl, rfl⟩

/-- Witness for C3's amended claim at a concrete DELETE endpoint. -/
theorem removes_defaults_witness :
    HtmxAction.build (removes ⟨"/t/7".data, Method.delete⟩)
      = (methodAttr Method.delete ++ '=' :: '"' :: ("/t/7".data ++ ['"']))
        ++ ' ' :: ("hx-target=\"closest li\"".data ++ ' ' :: "hx-swap=\"outerHTML\"".data) :=
  removes_defaults.2.1 ⟨"/t/7".data, Method.delete⟩

/-! ## C1 — escape-by-default rendering -/

lemma isPrefixB_append (p x : List Char) : isPrefixB p (p ++ x) = true := by
  induction p with
  | nil => rfl
  | cons c rest ih => simp [isPrefixB, ih]

lemma wellEscaped_cons_plain {c : Char} {rest : List Char}
    (h1 : c ≠ '<') (h2 : c ≠ '>') (h3 : c ≠ '&') :
    wellEscaped (c :: rest) = wellEscaped rest := by
  simp [wellEscaped, entityOkAt, h1, h2, h3]

lemma wellEscaped_of_plain :
    ∀ s : List Char, (∀ c ∈ s, c ≠ '<' ∧ c ≠ '>' ∧ c ≠ '&') →
      wellEscaped s = true := by
  intro s
  induction s with
  | nil => intro _; rfl
  | cons c rest ih =>
    intro h
    obtain ⟨h1, h2, h3⟩ := h c (List.mem_cons_self c rest)
    rw [wellEscaped_cons_plain h1 h2 h3]
    exact ih fun d hd => h d (List.mem_cons_of_mem c hd)

lemma wellEscaped_escapeChar (c : Char) (rest : List Char) :
    wellEscaped (escapeChar c ++ rest) = wellEscaped rest := by
  by_cases hamp : c = '&'
  · subst hamp; rfl
  by_cases hlt : c = '<'
  · subst hlt; rfl
  by_cases hgt : c = '>'
  · subst hgt; rfl
  · rw [show escapeChar c = [c] by simp [escapeChar, hamp, hlt, hgt]]
    exact wellEscaped_cons_plain hlt hgt hamp

lemma wellEscaped_escape_html (s : List Char) :
    wellEscaped (escape_html s) = true := by
  induction s with
  | nil => rfl
  | cons c rest ih =>
    show wellEscaped (escapeChar c ++ (rest.map escapeChar).flatten) = true
    rw [wellEscaped_escapeChar]
    exact ih

lemma digitChar_plain :
    ∀ m, m < 10 → Nat.digitChar m ≠ '<' ∧ Nat.digitChar m ≠ '>' ∧ Nat.digitChar m ≠ '&' := by
  decide

lemma natToDigits_plain :
    ∀ fuel n, ∀ c ∈ natToDigits fuel n, c ≠ '<' ∧ c ≠ '>' ∧ c ≠ '&' := by
  intro fuel
  induction fuel with
  | zero => intro n c hc; simp [natToDigits] at hc
  | succ fuel ih =>
    intro n c hc
    by_cases h : n < 10
    · rw [natToDigits, if_pos h] at hc
      obtain rfl := List.mem_singleton.mp hc
      exact digitChar_plain n h
    · rw [natToDigits, if_neg h] at hc
      rcases List.mem_append.mp hc with hm | hm
      · exact ih (n / 10) c hm
      · obtain rfl := List.mem_singleton.mp hm
        exact digitChar_plain (n % 10) (Nat.mod_lt n (by norm_num))

lemma wellEscaped_intToString (n : Int) : wellEscaped (intToString n) = true := by
  cases n with
  | ofNat m =>
    exact wellEscaped_of_plain _ (natToDigits_plain (m + 1) m)
  | negSucc m =>
    show wellEscaped ('-' :: natToString (m + 1)) = true
    rw [wellEscaped_cons_plain (by decide) (by decide) (by decide)]
    exact wellEscaped_of_plain _ (natToDigits_plain (m + 2) (m + 1))

/-- C1 counterexample: a double-quote character rendered through a generic
expression block is appended verbatim — `escape_html` (via
`html_escape::encode_text`) leaves `"` and `'` unescaped — refuting the
claim that all five special characters are escaped. -/
theorem quote_unescaped_counterexample :
    renderHtml (RVal.str ['"']) = ['"'] ∧ '"' ∈ renderHtml (RVal.str ['"']) ∧
    renderHtml (RVal.str ['\'']) = ['\''] := by
  refine ⟨rfl, ?_, rfl⟩
  decide

/-- C1 (amended): every non-`Fragment` scalar value rendered through a
generic expression block yields output with no raw `<` or `>` in which
every `&` begins one of the entities `&amp;`/`&lt;`/`&gt;` (`"` and `'`
are not escaped); `Fragment` is the only `RenderHtml` type whose content
is appended without escaping. -/
theorem renderHtml_escapes :
    (∀ v : RVal, (∀ f, v ≠ RVal.frag f) → wellEscaped (renderHtml v) = true) ∧
    (∀ f : Fragment, renderHtml (RVal.frag f) = f.html) := by
  constructor
  · intro v hv
    cases v with
    | str s => exact wellEscaped_escape_html s
    | int n => exact wellEscaped_intToString n
    | boolean b => cases b <;> decide
    | frag f => exact absurd rfl (hv f)
  · intro f
    rfl

/-- Witness for C1's amended claim: an escaped text value and a raw
fragment that bypasses escaping. -/
theorem renderHtml_escapes_witness :
    wellEscaped (renderHtml (RVal.str "a<b&\"".data)) = true ∧
    renderHtml (RVal.frag ⟨"<b>".data⟩) = "<b>".data :=
  ⟨renderHtml_escapes.1 (RVal.str "a<b&\"".data) (fun _ h => by cases h),
   renderHtml_escapes.2 ⟨"<b>".data⟩⟩

/-! ## C4 — boolean attributes -/

/-- C4: for each of the boolean attribute names `checked`, `disabled`,
`selected`, `readonly` with a value expression used as condition: a false
condition emits nothing (no trace of the name in the tag), a true
condition emits the bare name exactly once, with no `=value` suffix. -/
theorem boolAttr_rendering :
    ∀ name ∈ boolAttrNames, ∀ b : Bool,
      renderAttr (Attr.attr name (some (AttrVal.b b)))
        = some (if b then ' ' :: name else []) ∧
      countSubstr name
        (renderElement "input".data (if b then ' ' :: name else []) [])
        = (if b then 1 else 0) ∧
      '=' ∉ (if b then ' ' :: name else ([] : List Char)) := by
  intro name h b
  fin_cases h <;> cases b <;> exact ⟨by decide, by decide, by decide⟩

/-- Witness for C4 at the `checked` attribute. -/
theorem boolAttr_rendering_witness :
    renderAttr (Attr.attr "checked".data (some (AttrVal.b true)))
      = some (if true then ' ' :: "checked".data else []) ∧
    countSubstr "checked".data
      (renderElement "input".data (if true then ' ' :: "checked".data else []) [])
      = (if true then 1 else 0) ∧
    '=' ∉ (if true then ' ' :: "checked".data else ([] : List Char)) :=
  boolAttr_rendering "checked".data (by decide) true

/-! ## C8 — `@for` rendering -/

lemma renderForAcc_flatten {α : Type} (bodyF : α → List Char) :
    ∀ (items : List α) (acc : List Char),
      renderForAcc bodyF items acc = acc ++ (items.map bodyF).flatten := by
  intro items
  induction items with
  | nil => intro acc; simp [renderForAcc]
  | cons x rest ih =>
    intro acc
    show renderForAcc bodyF rest (acc ++ bodyF x) = _
    rw [ih]
    simp

/-- C8: an `@for` over the empty sequence appends nothing; over `[x, y]`
it appends the body rendered for `x` immediately followed by the body
rendered for `y`; in general it appends the in-order concatenation of the
body's rendering per element. -/
theorem forLoop_concat :
    (∀ (α : Type) (bodyF : α → List Char) (acc : List Char),
      renderForAcc bodyF [] acc = acc) ∧
    (∀ (α : Type) (bodyF : α → List Char) (acc : List Char) (x y : α),
      renderForAcc bodyF [x, y] acc = acc ++ (bodyF x ++ bodyF y)) ∧
    (∀ (α : Type) (bodyF : α → List Char) (items : List α) (acc : List Char),
      renderForAcc bodyF items acc = acc ++ (items.map bodyF).flatten) := by
  refine ⟨fun α bodyF acc => rfl, fun α bodyF acc x y => ?_, fun α bodyF items acc =>
    renderForAcc_flatten bodyF items acc⟩
  rw [renderForAcc_flatten]
  simp

/-- Witness for C8 over a concrete two-element list. -/
theorem forLoop_concat_witness :
    renderForAcc (fun n : Nat => natToString n) [1, 2] "go".data
      = "go".data ++ (natToString 1 ++ natToString 2) :=
  forLoop_concat.2.1 Nat (fun n => natToString n) "go".data 1 2

/-! ## C5 — the self-closing tag set -/

/-- C5: the self-closing set is exactly the thirteen listed tags; an
element with such a name parses with no close tag and renders with the
trailing ` />` marker; an element with any other name and no matching
close tag fails the parse. -/
theorem selfClosing_tag_set :
    (∀ t, selfClosing t = true ↔ t ∈ selfClosedElements) ∧
    (∀ t, selfClosing t = true →
      parseToks [Tok.openTag t] = some [PNode.elem t []] ∧
      renderElement t [] [] = '<' :: (t ++ " />".data)) ∧
    (∀ t, selfClosing t = false →
      parseToks [Tok.openTag t] = none ∧
      renderElement t [] [] = '<' :: (t ++ '>' :: ('<' :: '/' :: (t ++ ['>'])))) ∧
    (selfClosing "br".data = true ∧ selfClosing "div".data = false) := by
  refine ⟨?_, ?_, ?_, by decide, by decide⟩
  · intro t
    simp [selfClosing]
  · intro t h
    constructor
    · simp [parseToks, parseMany, h]
    · simp [renderElement, h]
  · intro t h
    constructor
    · simp [parseToks, parseMany, h]
    · simp [renderElement, h]

/-- Witness for C5: `<br>` with no close tag parses and renders
self-closed; `<div>` with no close tag fails the parse. -/
theorem selfClosing_tag_set_witness :
    parseToks [Tok.openTag "br".data] = some [PNode.elem "br".data []] ∧
    parseToks [Tok.openTag "div".data] = none :=
  ⟨(selfClosing_tag_set.2.1 "br".data (by decide)).1,
   (selfClosing_tag_set.2.2.1 "div".data (by decide)).1⟩

/-! ## C2 — parameter recognition in path templates -/

/-- C2 counterexample: a placeholder embedded inside a `/`-delimited chunk
is not recognized — `pathParams "/a{id}b"` is empty and in particular
contains no parameter named `id`, refuting the claim that `{…}` is
recognized wherever it occurs. -/
theorem embedded_placeholder_counterexample :
    pathParams "/a{id}b".data = [] ∧ "id".data ∉ pathParams "/a{id}b".data := by
  refine ⟨by decide, by decide⟩

/-- C2 (amended): a name is extracted as a path parameter precisely when
some `/`-delimited chunk of the template is exactly that name wrapped in
braces; placeholders embedded in a larger chunk are not parameters. -/
theorem pathParams_whole_segments :
    ∀ t name, name ∈ pathParams t ↔ ('{' :: (name ++ ['}'])) ∈ splitOnChar '/' t := by
  intro t name
  unfold pathParams
  constructor
  · intro h
    obtain ⟨seg, hseg, hstrip⟩ := List.mem_map.mp h
    obtain ⟨hmem, hfilt⟩ := List.mem_filter.mp hseg
    have h12 := Bool.and_eq_true_iff.mp hfilt
    obtain ⟨h1, h2⟩ := h12
    cases seg with
    | nil => simp [startsWithBrace] at h1
    | cons c rest =>
      have hc : c = '{' := by simpa [startsWithBrace] using h1
      subst hc
      cases rest with
      | nil => simp [endsWithCloseBrace] at h2
      | cons d ds =>
        have hlast : (d :: ds).getLast? = some '}' := by
          simpa [endsWithCloseBrace, List.getLast?_cons_cons] using h2
        have hne : (d :: ds) ≠ [] := by simp
        have hgl : (d :: ds).getLast hne = '}' := by
          have := List.getLast?_eq_getLast (d :: ds) hne
          rw [this] at hlast
          exact Option.some_injective _ hlast
        have hdecomp : (d :: ds).dropLast ++ ['}'] = d :: ds := by
          conv_rhs => rw [← List.dropLast_append_getLast hne]
          rw [hgl]
        have hname : name = (d :: ds).dropLast := by
          simpa [stripBraces] using hstrip.symm
        rw [hname, hdecomp]
        exact hmem
  · intro h
    refine List.mem_map.mpr ⟨'{' :: (name ++ ['}']), List.mem_filter.mpr ⟨h, ?_⟩, ?_⟩
    · show isParamSeg ('{' :: (name ++ ['}'])) = true
      have hlast : ('{' :: (name ++ ['}'])).getLast? = some '}' := by
        rw [show '{' :: (name ++ ['}']) = ('{' :: name) ++ ['}'] from rfl,
          List.getLast?_concat]
      simp [isParamSeg, startsWithBrace, endsWithCloseBrace, hlast]
    · show stripBraces ('{' :: (name ++ ['}'])) = name
      simp [stripBraces, List.dropLast_concat]

/-- Witness for C2's amended claim on a concrete template. -/
theorem pathParams_whole_segments_witness :
    "id".data ∈ pathParams "/tasks/{id}/toggle".data :=
  (pathParams_whole_segments "/tasks/{id}/toggle".data "id".data).mpr (by decide)

/-! ## C7 — malformed placeholders and compile failure -/

/-- C7 counterexample: templates with an unmatched `{`, an unmatched `}`,
or an embedded empty placeholder compile successfully (as constant routes
with the braces kept literally), refuting the claim that every malformed
placeholder fails the build. -/
theorem malformed_templates_compile :
    templateCompiles "/a\x7bb".data = true ∧ templateCompiles "/a\x7db".data = true ∧
    templateCompiles "/x/\x7bid".data = true ∧ templateCompiles "/a{}b".data = true := by
  refine ⟨by decide, by decide, by decide, by decide⟩

/-- C7 (amended): a route template can fail to compile only when at least
one whole-segment parameter is extracted: it compiles whenever no
parameter is extracted (even with unmatched braces); it fails when a
whole-segment placeholder has an empty name, and when a parameter exists
while some `{`-introduced part has no closing `}`. -/
theorem templateCompiles_characterization :
    ∀ t, (pathParams t = [] → templateCompiles t = true) ∧
      ([] ∈ pathParams t → templateCompiles t = false) ∧
      (pathParams t ≠ [] →
        ∀ part ∈ (splitOnChar '{' t).drop 1, findCloseBrace part = none →
          templateCompiles t = false) := by
  intro t
  refine ⟨?_, ?_, ?_⟩
  · intro h
    simp [templateCompiles, h]
  · intro h
    have hne : pathParams t ≠ [] := List.ne_nil_of_mem h
    have hall : (pathParams t).all validIdent = false := by
      rw [List.all_eq_false]
      exact ⟨[], h, by decide⟩
    simp [templateCompiles, if_neg hne, hall]
  · intro hne part hpart hnone
    have hall : ((splitOnChar '{' t).drop 1).all (fun part =>
        match findCloseBrace part with
        | some (n, _) => validIdent n && ((pathParams t).contains n || n == "url".data)
        | none => false) = false := by
      rw [List.all_eq_false]
      refine ⟨part, hpart, ?_⟩
      simp [hnone]
    rw [templateCompiles, if_neg hne, hall, Bool.and_false]

/-- Witness for C7's amended claim at concrete templates. -/
theorem templateCompiles_characterization_witness :
    templateCompiles "/ok".data = true ∧
    templateCompiles "/{}".data = false ∧
    templateCompiles "/{a}/x\x7b".data = false :=
  ⟨(templateCompiles_characterization "/ok".data).1 (by decide),
   (templateCompiles_characterization "/{}".data).2.1 (by decide),
   (templateCompiles_characterization "/{a}/x\x7b".data).2.2 (by decide) [] (by decide) rfl⟩

/-! ## C6 — reverse-URL round trip

Auxiliary lemmas about `splitOnChar` and the brace decomposition of a
well-formed template. -/

lemma splitOnChar_of_not_mem (c : Char) :
    ∀ xs : List Char, c ∉ xs → splitOnChar c xs = [xs] := by
  intro xs
  induction xs with
  | nil => intro _; rfl
  | cons x xs ih =>
    intro h
    have hx : x ≠ c := fun e => h (e ▸ List.mem_cons_self x xs)
    have hxs : c ∉ xs := fun m => h (List.mem_cons_of_mem x m)
    rw [splitOnChar, if_neg hx, ih hxs]

lemma splitOnChar_append (c : Char) :
    ∀ (xs ys : List Char), c ∉ xs →
      splitOnChar c (xs ++ c :: ys) = xs :: splitOnChar c ys := by
  intro xs
  induction xs with
  | nil =>
    intro ys _
    show splitOnChar c (c :: ys) = [] :: splitOnChar c ys
    rw [splitOnChar, if_pos rfl]
  | cons x xs ih =>
    intro ys h
    have hx : x ≠ c := fun e => h (e ▸ List.mem_cons_self x xs)
    have hxs : c ∉ xs := fun m => h (List.mem_cons_of_mem x m)
    show splitOnChar c (x :: (xs ++ c :: ys)) = (x :: xs) :: splitOnChar c ys
    rw [splitOnChar, if_neg hx, ih ys hxs]

lemma segStr_no_slash (s : Seg) (h : SegOk s) : '/' ∉ segStr s := by
  cases s with
  | lit l => exact h.2.2
  | par a =>
    intro hm
    rcases List.mem_cons.mp hm with h1 | h1
    · exact absurd h1 (by decide)
    · rcases List.mem_append.mp h1 with h2 | h2
      · exact h.2.2.2 h2
      · exact absurd (List.mem_singleton.mp h2) (by decide)

lemma split_joinSegs :
    ∀ segs : List Seg, segs ≠ [] → (∀ s ∈ segs, SegOk s) →
      splitOnChar '/' (joinSegs segs) = segs.map segStr := by
  intro segs
  induction segs with
  | nil => intro h _; exact absurd rfl h
  | cons s rest ih =>
    intro _ hok
    have hs : SegOk s := hok s (List.mem_cons_self s rest)
    cases rest with
    | nil =>
      show splitOnChar '/' (segStr s) = [segStr s]
      exact splitOnChar_of_not_mem '/' _ (segStr_no_slash s hs)
    | cons r rs =>
      show splitOnChar '/' (segStr s ++ '/' :: joinSegs (r :: rs)) = segStr s :: (r :: rs).map segStr
      rw [splitOnChar_append '/' _ _ (segStr_no_slash s hs),
        ih (by simp) (fun x hx => hok x (List.mem_cons_of_mem s hx))]

lemma startsWithBrace_eq_false {l : List Char} (h : '{' ∉ l) :
    startsWithBrace l = false := by
  cases l with
  | nil => rfl
  | cons c cs =>
    have : c ≠ '{' := fun e => h (e ▸ List.mem_cons_self c cs)
    simp [startsWithBrace, this]

lemma isParamSeg_par (a : List Char) : isParamSeg ('{' :: (a ++ ['}'])) = true := by
  have hlast : ('{' :: (a ++ ['}'])).getLast? = some '}' := by
    rw [show '{' :: (a ++ ['}']) = ('{' :: a) ++ ['}'] from rfl, List.getLast?_concat]
  simp [isParamSeg, startsWithBrace, endsWithCloseBrace, hlast]

lemma stripBraces_par (a : List Char) : stripBraces ('{' :: (a ++ ['}'])) = a := by
  simp [stripBraces, List.dropLast_concat]

lemma pathParams_segList :
    ∀ segs : List Seg, (∀ s ∈ segs, SegOk s) →
      ((segs.map segStr).filter isParamSeg).map stripBraces = parNames segs := by
  intro segs
  induction segs with
  | nil => intro _; rfl
  | cons s rest ih =>
    intro hok
    have hs : SegOk s := hok s (List.mem_cons_self s rest)
    have htail := ih (fun x hx => hok x (List.mem_cons_of_mem s hx))
    cases s with
    | lit l =>
      have hfalse : isParamSeg (segStr (Seg.lit l)) = false := by
        show isParamSeg l = false
        simp [isParamSeg, startsWithBrace_eq_false hs.1]
      simp [List.filter_cons, hfalse, parNames, htail]
    | par a =>
      simp [List.filter_cons, segStr, isParamSeg_par, stripBraces_par, parNames, htail]

lemma pathParams_joinSegs (segs : List Seg) (hok : ∀ s ∈ segs, SegOk s) :
    pathParams (joinSegs segs) = parNames segs := by
  cases segs with
  | nil => decide
  | cons s rest =>
    unfold pathParams
    rw [split_joinSegs (s :: rest) (by simp) hok]
    exact pathParams_segList (s :: rest) hok

lemma braceOf_join :
    ∀ segs : List Seg,
      joinSegs segs = (braceOf segs).1 ++ concatBlocks (braceOf segs).2 := by
  intro segs
  induction segs with
  | nil => rfl
  | cons s rest ih =>
    cases rest with
    | nil =>
      cases s with
      | lit l => simp [joinSegs, braceOf, concatBlocks, segStr]
      | par a => simp [joinSegs, braceOf, concatBlocks, segStr]
    | cons r rs =>
      rcases hEq : braceOf (r :: rs) with ⟨f, bs⟩
      rw [hEq] at ih
      cases s with
      | lit l =>
        show segStr (Seg.lit l) ++ '/' :: joinSegs (r :: rs)
          = (braceOf (Seg.lit l :: r :: rs)).1 ++ concatBlocks (braceOf (Seg.lit l :: r :: rs)).2
        rw [braceOf, hEq]
        simp [segStr, ih]
      | par a =>
        show segStr (Seg.par a) ++ '/' :: joinSegs (r :: rs)
          = (braceOf (Seg.par a :: r :: rs)).1 ++ concatBlocks (braceOf (Seg.par a :: r :: rs)).2
        rw [braceOf, hEq]
        simp [segStr, concatBlocks, ih]

lemma braceOf_first :
    ∀ segs : List Seg, (∀ s ∈ segs, SegOk s) → '{' ∉ (braceOf segs).1 := by
  intro segs
  induction segs with
  | nil => intro _; simp [braceOf]
  | cons s rest ih =>
    intro hok
    have hs : SegOk s := hok s (List.mem_cons_self s rest)
    have htail := ih (fun x hx => hok x (List.mem_cons_of_mem s hx))
    cases rest with
    | nil =>
      cases s with
      | lit l => simpa [braceOf] using hs.1
      | par a => simp [braceOf]
    | cons r rs =>
      rcases hEq : braceOf (r :: rs) with ⟨f, bs⟩
      have hf : '{' ∉ f := by
        rwa [hEq] at htail
      cases s with
      | lit l =>
        rw [braceOf, hEq]
        simp only []
        intro hm
        rcases List.mem_append.mp hm with h1 | h1
        · exact hs.1 h1
        · rcases List.mem_cons.mp h1 with h2 | h2
          · exact absurd h2 (by decide)
          · exact hf h2
      | par a =>
        rw [braceOf, hEq]
        simp

lemma braceOf_blocks :
    ∀ segs : List Seg, (∀ s ∈ segs, SegOk s) →
      ∀ b ∈ (braceOf segs).2,
        validIdent b.1 = true ∧ '{' ∉ b.1 ∧ '}' ∉ b.1 ∧ '{' ∉ b.2 := by
  intro segs
  induction segs with
  | nil => intro _ b hb; simp [braceOf] at hb
  | cons s rest ih =>
    intro hok b hb
    have hs : SegOk s := hok s (List.mem_cons_self s rest)
    have htail := ih (fun x hx => hok x (List.mem_cons_of_mem s hx))
    cases rest with
    | nil =>
      cases s with
      | lit l => simp [braceOf] at hb
      | par a =>
        simp [braceOf] at hb
        subst hb
        exact ⟨hs.1, hs.2.1, hs.2.2.1, by simp⟩
    | cons r rs =>
      rcases hEq : braceOf (r :: rs) with ⟨f, bs⟩
      rw [hEq] at htail
      have hf : '{' ∉ f := by
        have := braceOf_first (r :: rs) (fun x hx => hok x (List.mem_cons_of_mem s hx))
        rwa [hEq] at this
      cases s with
      | lit l =>
        rw [braceOf, hEq] at hb
        exact htail b hb
      | par a =>
        rw [braceOf, hEq] at hb
        rcases List.mem_cons.mp hb with h1 | h1
        · subst h1
          refine ⟨hs.1, hs.2.1, hs.2.2.1, ?_⟩
          intro hm
          rcases List.mem_cons.mp hm with h2 | h2
          · exact absurd h2 (by decide)
          · exact hf h2
        · exact htail b h1

lemma splitBrace_decomp :
    ∀ (bs : List (List Char × List Char)) (first : List Char),
      '{' ∉ first → (∀ b ∈ bs, '{' ∉ b.1 ∧ '{' ∉ b.2) →
      splitOnChar '{' (first ++ concatBlocks bs)
        = first :: bs.map (fun b => b.1 ++ '}' :: b.2) := by
  intro bs
  induction bs with
  | nil =>
    intro first h1 _
    show splitOnChar '{' (first ++ []) = [first]
    rw [List.append_nil]
    exact splitOnChar_of_not_mem '{' first h1
  | cons b rest ih =>
    intro first h1 hb
    obtain ⟨a, r⟩ := b
    have hstep : first ++ concatBlocks ((a, r) :: rest)
        = first ++ '{' :: ((a ++ '}' :: r) ++ concatBlocks rest) := by
      simp [concatBlocks]
    rw [hstep, splitOnChar_append '{' _ _ h1]
    have ha : '{' ∉ a := (hb (a, r) (List.mem_cons_self _ _)).1
    have hr : '{' ∉ r := (hb (a, r) (List.mem_cons_self _ _)).2
    have hfirst : '{' ∉ a ++ '}' :: r := by
      intro hm
      rcases List.mem_append.mp hm with h2 | h2
      · exact ha h2
      · rcases List.mem_cons.mp h2 with h3 | h3
        · exact absurd h3 (by decide)
        · exact hr h3
    rw [ih (a ++ '}' :: r) hfirst (fun x hx => hb x (List.mem_cons_of_mem _ hx))]
    simp

lemma findCloseBrace_eq :
    ∀ (a r : List Char), '}' ∉ a → findCloseBrace (a ++ '}' :: r) = some (a, r) := by
  intro a
  induction a with
  | nil =>
    intro r _
    show findCloseBrace ('}' :: r) = some ([], r)
    rw [findCloseBrace, if_pos rfl]
  | cons c cs ih =>
    intro r h
    have hc : c ≠ '}' := fun e => h (e ▸ List.mem_cons_self c cs)
    have hcs : '}' ∉ cs := fun m => h (List.mem_cons_of_mem c m)
    show findCloseBrace (c :: (cs ++ '}' :: r)) = some (c :: cs, r)
    rw [findCloseBrace, if_neg hc, ih r hcs]

lemma urlTail_eval (env : List Char → Option (List Char)) :
    ∀ (bs : List (List Char × List Char)) (vs : List (List Char)),
      List.Forall₂ (fun b v => env b.1 = some v) bs vs →
      (∀ b ∈ bs, '}' ∉ b.1 ∧ b.1 ≠ "url".data) →
      ∀ acc, urlTail env (bs.map fun b => b.1 ++ '}' :: b.2) acc
        = some (acc ++ (List.zipWith (fun b v => v ++ b.2) bs vs).flatten) := by
  intro bs vs hf
  induction hf with
  | nil => intro _ acc; simp [urlTail]
  | @cons b v bs' vs' hbv hrest ih =>
    intro hmem acc
    have hname := hmem b (List.mem_cons_self b bs')
    have htail := ih (fun x hx => hmem x (List.mem_cons_of_mem b hx))
    simp only [List.map_cons, urlTail, findCloseBrace_eq b.1 b.2 hname.1,
      Option.bind_eq_bind, Option.some_bind, List.zipWith_cons_cons, List.flatten_cons]
    rw [if_neg (show ¬b.1 = ['u', 'r', 'l'] from hname.2), hbv]
    simp only [Option.bind_eq_bind, Option.some_bind]
    rw [htail (acc ++ v ++ b.2)]
    simp

lemma forall₂_imp_mem {α β : Type} {R S : α → β → Prop} :
    ∀ {l₁ : List α} {l₂ : List β}, List.Forall₂ R l₁ l₂ →
      (∀ a ∈ l₁, ∀ b, R a b → S a b) → List.Forall₂ S l₁ l₂ := by
  intro l₁ l₂ h
  induction h with
  | nil => intro _; exact List.Forall₂.nil
  | @cons a b l₁' l₂' hab hrest ih =>
    intro himp
    exact List.Forall₂.cons (himp a (List.mem_cons_self a l₁') b hab)
      (ih fun x hx y hr => himp x (List.mem_cons_of_mem a hx) y hr)

lemma lookupAssoc_forall₂ :
    ∀ (names vals : List (List Char)), names.Nodup → names.length = vals.length →
      List.Forall₂ (fun n v => lookupAssoc (names.zip vals) n = some v) names vals := by
  intro names
  induction names with
  | nil =>
    intro vals _ hlen
    cases vals with
    | nil => exact List.Forall₂.nil
    | cons v vs => simp at hlen
  | cons n ns ih =>
    intro vals hnd hlen
    cases vals with
    | nil => simp at hlen
    | cons v vs =>
      refine List.Forall₂.cons ?_ ?_
      · show lookupAssoc ((n, v) :: ns.zip vs) n = some v
        rw [lookupAssoc, if_pos rfl]
      · have hnotmem : n ∉ ns := (List.nodup_cons.mp hnd).1
        have base := ih vs (List.nodup_cons.mp hnd).2 (by simpa using hlen)
        refine forall₂_imp_mem base ?_
        intro a ha b hr
        show lookupAssoc ((n, v) :: ns.zip vs) a = some b
        have hne : n ≠ a := fun e => hnotmem (e ▸ ha)
        rw [lookupAssoc, if_neg hne, hr]

lemma nodupB_iff : ∀ l : List (List Char), nodupB l = true ↔ l.Nodup := by
  intro l
  induction l with
  | nil => simp [nodupB]
  | cons x xs ih =>
    rw [nodupB, List.nodup_cons, Bool.and_eq_true, Bool.not_eq_true', ih]
    rw [show xs.contains x = decide (x ∈ xs) from List.elem_eq_mem x xs]
    constructor
    · rintro ⟨h1, h2⟩
      exact ⟨fun hm => by simp [hm] at h1, h2⟩
    · rintro ⟨h1, h2⟩
      exact ⟨by simp [h1], h2⟩

lemma braceOf_names :
    ∀ segs : List Seg, (braceOf segs).2.map Prod.fst = parNames segs := by
  intro segs
  induction segs with
  | nil => rfl
  | cons s rest ih =>
    cases rest with
    | nil =>
      cases s with
      | lit l => rfl
      | par a => rfl
    | cons r rs =>
      rcases hEq : braceOf (r :: rs) with ⟨f, bs⟩
      rw [hEq] at ih
      cases s with
      | lit l =>
        rw [parNames, braceOf, hEq]
        exact ih
      | par a =>
        rw [parNames, braceOf, hEq]
        simp only [List.map_cons]
        rw [ih]

lemma substSegs_length :
    ∀ (segs : List Seg) (args : List (List Char)),
      (substSegs segs args).length = segs.length := by
  intro segs
  induction segs with
  | nil => intro args; rfl
  | cons s rest ih =>
    intro args
    cases s with
    | lit l => simp [substSegs, ih]
    | par a =>
      cases args with
      | nil => simp [substSegs, ih]
      | cons v vs => simp [substSegs, ih]

lemma substSegs_join :
    ∀ (segs : List Seg) (args : List (List Char)),
      (parNames segs).length ≤ args.length →
      joinSegs (substSegs segs args)
        = (braceOf segs).1
          ++ (List.zipWith (fun b v => v ++ b.2) (braceOf segs).2 args).flatten := by
  intro segs
  induction segs with
  | nil => intro args _; simp [substSegs, joinSegs, braceOf]
  | cons s rest ih =>
    intro args hlen
    cases rest with
    | nil =>
      cases s with
      | lit l => simp [substSegs, joinSegs, braceOf, segStr]
      | par a =>
        cases args with
        | nil => simp [parNames] at hlen
        | cons v vs => simp [substSegs, joinSegs, braceOf, segStr]
    | cons r rs =>
      rcases hEq : braceOf (r :: rs) with ⟨f, bs⟩
      cases s with
      | lit l =>
        have hlen' : (parNames (r :: rs)).length ≤ args.length := by
          simpa [parNames] using hlen
        have htail := ih args hlen'
        rw [hEq] at htail
        rcases hS : substSegs (r :: rs) args with _ | ⟨S0, Ss⟩
        · have hL := substSegs_length (r :: rs) args
          rw [hS] at hL
          simp at hL
        · show joinSegs (Seg.lit l :: substSegs (r :: rs) args)
            = (braceOf (Seg.lit l :: r :: rs)).1
              ++ (List.zipWith (fun b v => v ++ b.2) (braceOf (Seg.lit l :: r :: rs)).2 args).flatten
          rw [hS, joinSegs, ← hS, htail, braceOf, hEq]
          simp [segStr]
      | par a =>
        cases args with
        | nil => simp [parNames] at hlen
        | cons v vs =>
          have hlen' : (parNames (r :: rs)).length ≤ vs.length := by
            simpa [parNames] using hlen
          have htail := ih vs hlen'
          rw [hEq] at htail
          rcases hS : substSegs (r :: rs) vs with _ | ⟨S0, Ss⟩
          · have hL := substSegs_length (r :: rs) vs
            rw [hS] at hL
            simp at hL
          · show joinSegs (Seg.lit v :: substSegs (r :: rs) vs)
              = (braceOf (Seg.par a :: r :: rs)).1
                ++ (List.zipWith (fun b v => v ++ b.2) (braceOf (Seg.par a :: r :: rs)).2 (v :: vs)).flatten
            rw [hS, joinSegs, ← hS, htail, braceOf, hEq]
            simp [segStr]

/-- C6 counterexample: the generated function's local buffer
`let mut url` shadows an argument named `url`, so for the well-formed
template `/{url}` the generated function ignores its argument and
returns `//` (the buffer's own content is substituted), not the literal
segments interleaved with the supplied value (`/5`), refuting the
round-trip claim as stated. -/
theorem reverseUrl_url_shadow_counterexample :
    pathParams "/{url}".data = ["url".data] ∧
    reverseUrl "/{url}".data ["5".data] = some "//".data ∧
    reverseUrl "/{url}".data ["5".data]
      ≠ some (joinSegs (substSegs [Seg.lit [], Seg.par "url".data] ["5".data])) := by
  refine ⟨by decide, by decide, by decide⟩

/-- C6 (amended): for a well-formed path template (each placeholder a
whole `/`-segment with a valid, distinct name) none of whose parameters
is named `url` — the name captured by the generated function's internal
buffer — the extracted parameter list equals the template's placeholder
names in first-occurrence order (one positional argument each), the
declaration compiles, and the generated reverse-URL function applied to
argument values returns exactly the template's literal segments
interleaved with those values in template order. -/
theorem reverseUrl_roundTrip (segs : List Seg) (args : List (List Char))
    (hok : ∀ s ∈ segs, SegOk s)
    (hnd : (parNames segs).Nodup)
    (hnu : ∀ a ∈ parNames segs, a ≠ "url".data)
    (hlen : args.length = (parNames segs).length) :
    pathParams (joinSegs segs) = parNames segs ∧
    templateCompiles (joinSegs segs) = true ∧
    reverseUrl (joinSegs segs) args = some (joinSegs (substSegs segs args)) := by
  have hpp := pathParams_joinSegs segs hok
  have hfirst := braceOf_first segs hok
  have hblocks := braceOf_blocks segs hok
  have hnames := braceOf_names segs
  have hsplit : splitOnChar '{' (joinSegs segs)
      = (braceOf segs).1 :: (braceOf segs).2.map (fun b => b.1 ++ '}' :: b.2) := by
    rw [braceOf_join segs]
    exact splitBrace_decomp (braceOf segs).2 (braceOf segs).1 hfirst
      (fun b hb => ⟨(hblocks b hb).2.1, (hblocks b hb).2.2.2⟩)
  refine ⟨hpp, ?_, ?_⟩
  · by_cases hps : parNames segs = []
    · rw [templateCompiles, if_pos (by rw [hpp, hps])]
    · rw [templateCompiles, if_neg (by rw [hpp]; exact hps)]
      have hA : (pathParams (joinSegs segs)).all validIdent = true := by
        rw [hpp, List.all_eq_true]
        intro n hn
        rw [← hnames] at hn
        obtain ⟨b, hb, rfl⟩ := List.mem_map.mp hn
        exact (hblocks b hb).1
      have hB : nodupB (pathParams (joinSegs segs)) = true := by
        rw [hpp]
        exact (nodupB_iff _).mpr hnd
      have hC : ((splitOnChar '{' (joinSegs segs)).drop 1).all (fun part =>
          match findCloseBrace part with
          | some (n, _) => validIdent n && ((pathParams (joinSegs segs)).contains n || n == "url".data)
          | none => false) = true := by
        rw [hsplit]
        simp only [List.drop_succ_cons, List.drop_zero]
        rw [List.all_eq_true]
        intro part hpart
        obtain ⟨b, hb, rfl⟩ := List.mem_map.mp hpart
        simp only [findCloseBrace_eq b.1 b.2 (hblocks b hb).2.2.1]
        rw [Bool.and_eq_true, Bool.or_eq_true]
        refine ⟨(hblocks b hb).1, Or.inl ?_⟩
        rw [show (pathParams (joinSegs segs)).contains b.1
            = decide (b.1 ∈ pathParams (joinSegs segs)) from List.elem_eq_mem _ _]
        rw [decide_eq_true_eq, hpp, ← hnames]
        exact List.mem_map_of_mem Prod.fst hb
      rw [hA, hB, hC]
      rfl
  · rw [reverseUrl, if_pos (by rw [hpp, hlen])]
    have henv : List.Forall₂
        (fun b v => lookupAssoc ((pathParams (joinSegs segs)).zip args) b.1 = some v)
        (braceOf segs).2 args := by
      have base := lookupAssoc_forall₂ (parNames segs) args hnd hlen.symm
      rw [← hnames] at base
      have base2 := List.forall₂_map_left_iff.mp base
      rw [hnames] at base2
      rw [hpp]
      exact base2
    have hnub : ∀ b ∈ (braceOf segs).2, '}' ∉ b.1 ∧ b.1 ≠ "url".data := by
      intro b hb
      refine ⟨(hblocks b hb).2.2.1, ?_⟩
      apply hnu
      rw [← hnames]
      exact List.mem_map_of_mem Prod.fst hb
    have hurl := urlTail_eval (lookupAssoc ((pathParams (joinSegs segs)).zip args))
      (braceOf segs).2 args henv hnub (braceOf segs).1
    rw [urlBuild, hsplit]
    simp only [hurl]
    rw [substSegs_join segs args (le_of_eq hlen.symm)]

/-- Witness for C6 on the template `/tasks/{id}/toggle` with argument `5`. -/
theorem reverseUrl_roundTrip_witness :
    pathParams (joinSegs [Seg.lit [], Seg.lit "tasks".data, Seg.par "id".data, Seg.lit "toggle".data])
      = parNames [Seg.lit [], Seg.lit "tasks".data, Seg.par "id".data, Seg.lit "toggle".data] ∧
    templateCompiles (joinSegs [Seg.lit [], Seg.lit "tasks".data, Seg.par "id".data, Seg.lit "toggle".data]) = true ∧
    reverseUrl (joinSegs [Seg.lit [], Seg.lit "tasks".data, Seg.par "id".data, Seg.lit "toggle".data]) ["5".data]
      = some (joinSegs (substSegs [Seg.lit [], Seg.lit "tasks".data, Seg.par "id".data, Seg.lit "toggle".data] ["5".data])) :=
  reverseUrl_roundTrip
    [Seg.lit [], Seg.lit "tasks".data, Seg.par "id".data, Seg.lit "toggle".data]
    ["5".data] (by decide) (by decide) (by decide) (by decide)

end Acacia
